import Mathlib

/-!
Verification of the BruvTorrent BitTorrent client against its
natural-language specification.  The Python sources are shallowly
embedded as executable Lean definitions: byte strings become `List Nat`
(each entry a byte value), 32-bit machine arithmetic is `Nat` arithmetic
taken `% 2^32`, fallible operations return `Option` or `Except`, and the
stateful piece/block bookkeeping of `PieceManager` is explicit state
passing over a state record that keeps the source's object aliasing
(the one shared `std_piece_blocks` list) visible.
-/

set_option maxRecDepth 100000

namespace BruvTorrent

/-! ### SHA-1 (model of Python's `hashlib.sha1(...).digest()`)

The implementation follows FIPS 180-1 directly: pad the byte string,
split into 64-byte blocks, run the 80-round compression per block, and
emit the five 32-bit state words big-endian.  All words are `Nat`
reduced `% 2^32`. -/

/-- `2^32`, the word modulus of SHA-1. -/
def w32 : Nat := 4294967296

/-- Rotate the 32-bit word `x` left by `n` bits. -/
def rotl (n x : Nat) : Nat := ((x <<< n) ||| (x >>> (32 - n))) % w32

/-- Big-endian byte encoding of `n` on `k` bytes. -/
def toBytesBE : Nat → Nat → List Nat
  | 0, _ => []
  | k + 1, n => (n >>> (8 * k)) % 256 :: toBytesBE k n

/-- SHA-1 message padding: append `0x80`, zeros up to 56 mod 64, then the
bit length on 8 bytes big-endian. -/
def sha1Pad (msg : List Nat) : List Nat :=
  msg ++ 128 :: List.replicate ((119 - msg.length % 64) % 64) 0
      ++ toBytesBE 8 (msg.length * 8)

/-- Split a byte list into chunks of `n` bytes, with explicit structural
fuel so the definition evaluates inside the kernel. -/
def chunksOfAux (n : Nat) : Nat → List Nat → List (List Nat)
  | 0, _ => []
  | fuel + 1, l => if l = [] then [] else l.take n :: chunksOfAux n fuel (l.drop n)

/-- Split a byte list into chunks of `n` bytes (`n > 0`; total length is a
multiple of `n` for padded messages). -/
def chunksOf (n : Nat) (l : List Nat) : List (List Nat) :=
  chunksOfAux n l.length l

/-- Combine 4 consecutive bytes into one big-endian 32-bit word. -/
def wordsOf : List Nat → List Nat
  | b0 :: b1 :: b2 :: b3 :: rest =>
      (((b0 * 256 + b1) * 256 + b2) * 256 + b3) :: wordsOf rest
  | _ => []

/-- One extension step appending word `w[i] = rotl1 (w[i-3] xor w[i-8]
xor w[i-14] xor w[i-16])`, iterated `fuel` times. -/
def sha1ExtendAux : Nat → List Nat → List Nat
  | 0, w => w
  | fuel + 1, w =>
    let n := w.length
    sha1ExtendAux fuel (w ++ [rotl 1 ((w.getD (n - 3) 0) ^^^ (w.getD (n - 8) 0)
      ^^^ (w.getD (n - 14) 0) ^^^ (w.getD (n - 16) 0))])

/-- Extend the 16 message words to 80. -/
def sha1Extend (w : List Nat) : List Nat := sha1ExtendAux (80 - w.length) w

/-- The SHA-1 round function for round `t`. -/
def sha1F (t b c d : Nat) : Nat :=
  if t < 20 then (b &&& c) ||| ((b ^^^ 4294967295) &&& d)
  else if t < 40 then b ^^^ c ^^^ d
  else if t < 60 then (b &&& c) ||| (b &&& d) ||| (c &&& d)
  else b ^^^ c ^^^ d

/-- The SHA-1 round constant for round `t`. -/
def sha1K (t : Nat) : Nat :=
  if t < 20 then 1518500249
  else if t < 40 then 1859775393
  else if t < 60 then 2400959708
  else 3395469782

/-- `rounds` remaining compression rounds on state `(a,b,c,d,e)` with
word list `w`, the next round being round `t`. -/
def sha1RoundsAux (w : List Nat) : Nat → Nat → Nat × Nat × Nat × Nat × Nat →
    Nat × Nat × Nat × Nat × Nat
  | 0, _, st => st
  | rounds + 1, t, st =>
    let (a, b, c, d, e) := st
    let tmp := (rotl 5 a + sha1F t b c d + e + sha1K t + w.getD t 0) % w32
    sha1RoundsAux w rounds (t + 1) (tmp, a, rotl 30 b, c, d)

/-- The 80 compression rounds of SHA-1. -/
def sha1Rounds (w : List Nat) (st : Nat × Nat × Nat × Nat × Nat) :
    Nat × Nat × Nat × Nat × Nat :=
  sha1RoundsAux w 80 0 st

/-- Process one 64-byte block, updating the 5-word chaining state. -/
def sha1Block (h : Nat × Nat × Nat × Nat × Nat) (block : List Nat) :
    Nat × Nat × Nat × Nat × Nat :=
  let w := sha1Extend (wordsOf block)
  let (h0, h1, h2, h3, h4) := h
  let (a, b, c, d, e) := sha1Rounds w (h0, h1, h2, h3, h4)
  ((h0 + a) % w32, (h1 + b) % w32, (h2 + c) % w32, (h3 + d) % w32,
    (h4 + e) % w32)

/-- `sha1 msg` is the 20-byte SHA-1 digest of the byte string `msg`,
the model of Python's `hashlib.sha1(msg).digest()`. -/
def sha1 (msg : List Nat) : List Nat :=
  let (h0, h1, h2, h3, h4) :=
    (chunksOf 64 (sha1Pad msg)).foldl sha1Block
      (1732584193, 4023233417, 2562383102, 271733878, 3285377520)
  toBytesBE 4 h0 ++ toBytesBE 4 h1 ++ toBytesBE 4 h2 ++ toBytesBE 4 h3
    ++ toBytesBE 4 h4

/-! ### Decimal rendering helpers -/

/-- ASCII decimal digits of `n`, most significant first (`fuel`-bounded
structural recursion; `fuel = n + 1` always suffices). -/
def natDecimalAux : Nat → Nat → List Nat
  | 0, _ => []
  | fuel + 1, n => if n < 10 then [48 + n] else natDecimalAux fuel (n / 10) ++ [48 + n % 10]

/-- ASCII decimal rendering of a natural number. -/
def natDecimal (n : Nat) : List Nat := natDecimalAux (n + 1) n

/-- ASCII decimal rendering of an integer (minus sign for negatives),
Python's `str(int)`. -/
def intDecimal (i : Int) : List Nat :=
  if i < 0 then 45 :: natDecimal i.natAbs else natDecimal i.natAbs

/-! ### Bencode values and the codec contract

`bencodepy` is a third-party dependency of `src/core/torrent.py`.
Modelled from the spec: §6 requires an "exact round-trip encoding
compatible with the official specification" — byte strings as
`<length>:<bytes>`, integers as `i<digits>e`, lists as `l<items>e`,
dictionaries as `d<key><value>...e` with keys emitted in sorted byte
order — and §4.2 a recursive-descent decoder returning each production
together with the next unread index.  All recursions are structural on
an explicit fuel so the kernel can evaluate them; fuel of
`input length + 1` always suffices since every production consumes at
least one byte. -/

/-- A bencode value: byte string, integer, list or dictionary (entries
in decoded order, keys as raw byte strings). -/
inductive BVal where
  | bs (bytes : List Nat)
  | int (n : Int)
  | list (items : List BVal)
  | dict (entries : List (List Nat × BVal))

/-- Byte-lexicographic comparison of byte strings (used for the sorted
dictionary-key order of the bencode encoder). -/
def bytesLe : List Nat → List Nat → Bool
  | [], _ => true
  | _ :: _, [] => false
  | a :: as, b :: bs => if a < b then true else if b < a then false else bytesLe as bs

/-- Insert one `(key, encodedBytes)` pair into a key-sorted list. -/
def insertPair (p : List Nat × List Nat) : List (List Nat × List Nat) →
    List (List Nat × List Nat)
  | [] => [p]
  | q :: qs => if bytesLe p.1 q.1 then p :: q :: qs else q :: insertPair p qs

/-- Insertion sort of `(key, encodedBytes)` pairs by key. -/
def sortPairs : List (List Nat × List Nat) → List (List Nat × List Nat)
  | [] => []
  | p :: ps => insertPair p (sortPairs ps)

/-- Bencode byte-string production `<length>:<bytes>`. -/
def bencStr (b : List Nat) : List Nat := natDecimal b.length ++ 58 :: b

/-- Fuel-bounded bencode encoder (model of `bencodepy.encode`):
dictionary entries are emitted in sorted key order. -/
def bencodeF : Nat → BVal → List Nat
  | 0, _ => []
  | fuel + 1, v =>
    match v with
    | .bs b => bencStr b
    | .int n => 105 :: intDecimal n ++ [101]
    | .list items => 108 :: (items.map (bencodeF fuel)).flatten ++ [101]
    | .dict es =>
      100 :: ((sortPairs (es.map (fun p => (p.1, bencodeF fuel p.2)))).map
        (fun p => bencStr p.1 ++ p.2)).flatten ++ [101]

/-- `data[a:b]` of Python: the slice truncates silently at the end. -/
def slice (data : List Nat) (a b : Nat) : List Nat := (data.drop a).take (b - a)

/-- First position `j ≥ i` with `data[j] = c` (`bytes.index(c, i)`),
`none` when absent (Python raises `ValueError`). -/
def findFromAux (data : List Nat) (c : Nat) : Nat → Nat → Option Nat
  | 0, _ => none
  | fuel + 1, i =>
    match data[i]? with
    | none => none
    | some x => if x = c then some i else findFromAux data c fuel (i + 1)

/-- `bytes.index(c, i)` as an `Option`. -/
def findFrom (data : List Nat) (c : Nat) (i : Nat) : Option Nat :=
  findFromAux data c (data.length - i) i

/-- Python's `int()` on an ASCII byte slice: optional minus sign, then at
least one decimal digit. -/
def parseIntBytes (bs : List Nat) : Option Int :=
  let digits : List Nat → Option Nat := fun ds =>
    if ds = [] then none
    else ds.foldl (fun acc d => match acc with
      | none => none
      | some a => if 48 ≤ d ∧ d ≤ 57 then some (a * 10 + (d - 48)) else none)
      (some 0)
  match bs with
  | 45 :: rest => (digits rest).map (fun n => -(n : Int))
  | _ => (digits bs).map (fun n => (n : Int))

mutual

/-- Fuel-bounded recursive-descent bencode decoder at cursor `i`
(model of `bencodepy.decode`'s productions): returns the value and the
next unread index, `none` where Python would raise. -/
def bdecodeF : Nat → List Nat → Nat → Option (BVal × Nat)
  | 0, _, _ => none
  | fuel + 1, data, i =>
    match data[i]? with
    | none => none
    | some c =>
      if c = 100 then bdecodeDictF fuel data (i + 1) []
      else if c = 108 then bdecodeListF fuel data (i + 1) []
      else if c = 105 then
        match findFrom data 101 (i + 1) with
        | none => none
        | some e => (parseIntBytes (slice data (i + 1) e)).map (fun n => (.int n, e + 1))
      else
        match findFrom data 58 i with
        | none => none
        | some colon =>
          match parseIntBytes (slice data i colon) with
          | some (Int.ofNat len) =>
            some (.bs (slice data (colon + 1) (colon + 1 + len)), colon + 1 + len)
          | _ => none

/-- Decode list items until the closing `e`. -/
def bdecodeListF : Nat → List Nat → Nat → List BVal → Option (BVal × Nat)
  | 0, _, _, _ => none
  | fuel + 1, data, i, acc =>
    match data[i]? with
    | none => none
    | some c =>
      if c = 101 then some (.list acc, i + 1)
      else
        match bdecodeF fuel data i with
        | none => none
        | some (v, i') => bdecodeListF fuel data i' (acc ++ [v])

/-- Decode dictionary entries until the closing `e`; keys must be byte
strings. -/
def bdecodeDictF : Nat → List Nat → Nat → List (List Nat × BVal) →
    Option (BVal × Nat)
  | 0, _, _, _ => none
  | fuel + 1, data, i, acc =>
    match data[i]? with
    | none => none
    | some c =>
      if c = 101 then some (.dict acc, i + 1)
      else
        match bdecodeF fuel data i with
        | some (.bs k, i') =>
          match bdecodeF fuel data i' with
          | none => none
          | some (v, i'') => bdecodeDictF fuel data i'' (acc ++ [(k, v)])
        | _ => none

end

/-- `bencodepy.decode`: decode from index 0, ignoring trailing bytes. -/
def bdecode (data : List Nat) : Option BVal :=
  (bdecodeF (data.length + 1) data 0).map (·.1)

/-- `bencodepy.encode`. -/
def bencode (v : BVal) (fuel : Nat) : List Nat := bencodeF fuel v

/-- Dictionary lookup on decoded entries (first match, as in Python). -/
def dictGet (es : List (List Nat × BVal)) (k : List Nat) : Option BVal :=
  (es.find? (fun p => p.1 = k)).map (·.2)

/-- ASCII bytes of a Lean string (the byte strings appearing in this
development are plain ASCII). -/
def strBytes (s : String) : List Nat := s.toList.map Char.toNat

/-- `bytes.decode('utf-8')` for the ASCII byte strings used here. -/
def asciiDecode (bs : List Nat) : String := String.mk (bs.map Char.ofNat)

/-! ### `src/core/torrent.py` — the `Torrent` metadata model

`Torrent._parse` bencode-decodes the file bytes, computes
`info_hash = sha1(bencodepy.encode(info))`, slices `pieces` into
20-byte strides and builds the file list with cumulative offsets.
Optional display metadata (`comment`, `created by`, `creation date`)
is read by separate getters not modelled here. -/

/-- One entry of `Torrent.files`: `{'path': ..., 'length': ..., 'offset': ...}`. -/
structure TFile where
  path : String
  length : Nat
  offset : Nat
deriving DecidableEq, Repr

/-- The parsed `Torrent` record of `src/core/torrent.py`. -/
structure Torrent where
  announce : String
  infoHash : List Nat
  pieceLength : Nat
  pieces : List (List Nat)
  blockLength : Nat
  files : List TFile
  totalSize : Nat
  outputFile : String
deriving DecidableEq, Repr

/-- `Torrent._parse_multi_file`'s loop over `info[b'files']`: build one
file record per entry (path segments joined under the directory name)
while accumulating the running offset. -/
def coreFiles (dir : String) : List BVal → Nat → Option (List TFile × Nat)
  | [], off => some ([], off)
  | e :: rest, off =>
    match e with
    | .dict fe => do
      let len ← match dictGet fe (strBytes "length") with
        | some (.int (Int.ofNat n)) => some n
        | _ => none
      let segs ← match dictGet fe (strBytes "path") with
        | some (.list ss) =>
          ss.foldr (fun s acc => match s, acc with
            | .bs b, some l => some (b :: l)
            | _, _ => none) (some [])
        | _ => none
      let path := String.intercalate "/" (dir :: segs.map asciiDecode)
      let (fs, total) ← coreFiles dir rest (off + len)
      return (⟨path, len, off⟩ :: fs, total)
    | _ => none

/-- `Torrent._parse` (with `_parse_single_file` / `_parse_multi_file`):
the `Option` is `none` exactly where Python raises (missing required
keys, wrong value kinds). -/
def coreParse (data : List Nat) : Option Torrent := do
  let d ← match bdecode data with
    | some (.dict d) => some d
    | _ => none
  let announceB ← match dictGet d (strBytes "announce") with
    | some (.bs b) => some b
    | none => some []
    | some _ => none
  let infoV ← dictGet d (strBytes "info")
  let infoHash := sha1 (bencodeF (data.length + 1) infoV)
  let i ← match infoV with
    | .dict i => some i
    | _ => none
  let pl ← match dictGet i (strBytes "piece length") with
    | some (.int (Int.ofNat n)) => some n
    | _ => none
  let piecesB ← match dictGet i (strBytes "pieces") with
    | some (.bs b) => some b
    | _ => none
  let nameB ← match dictGet i (strBytes "name") with
    | some (.bs b) => some b
    | _ => none
  let base : Torrent :=
    { announce := asciiDecode announceB, infoHash := infoHash,
      pieceLength := pl, pieces := chunksOf 20 piecesB,
      blockLength := 16384, files := [], totalSize := 0,
      outputFile := asciiDecode nameB }
  match dictGet i (strBytes "files") with
  | some (.list fs) => do
    let (files, total) ← coreFiles (asciiDecode nameB) fs 0
    return { base with files := files, totalSize := total }
  | some _ => none
  | none => do
    let len ← match dictGet i (strBytes "length") with
      | some (.int (Int.ofNat n)) => some n
      | _ => none
    return { base with files := [⟨asciiDecode nameB, len, 0⟩], totalSize := len }

/-! ### `src/torrent.py` — the `TorrentMetadata` draft parser

Its `_decode_bencode` is a recursive-descent decoder whose dictionary
keys are decoded to `str`; `_parse_info` then computes
`info_hash = sha1(str(info).encode())` — a hash of the Python string
rendering of the decoded structure, not of a bencode re-encoding. -/

/-- A decoded Python value as produced by
`TorrentMetadata._decode_bencode`: byte strings, ints, lists, and dicts
with `str` keys. -/
inductive PyVal where
  | bytes (bs : List Nat)
  | int (n : Int)
  | list (items : List PyVal)
  | dict (entries : List (String × PyVal))

/-- `result[key] = value` on a Python dict: overwrite in place if the
key exists, else append. -/
def pdictSet (es : List (String × PyVal)) (k : String) (v : PyVal) :
    List (String × PyVal) :=
  if es.any (·.1 = k) then es.map (fun p => if p.1 = k then (k, v) else p)
  else es ++ [(k, v)]

/-- Python dict lookup. -/
def pdictGet (es : List (String × PyVal)) (k : String) : Option PyVal :=
  (es.find? (·.1 = k)).map (·.2)

mutual

/-- `TorrentMetadata._decode_bencode`'s inner `decode(data, index)`:
fuel-bounded recursive descent, `none` where Python raises
(`IndexError` past the end, `ValueError` from `index`/`int`). -/
def pyDecodeF : Nat → List Nat → Nat → Option (PyVal × Nat)
  | 0, _, _ => none
  | fuel + 1, data, i =>
    match data[i]? with
    | none => none
    | some c =>
      if c = 100 then pyDecodeDictF fuel data (i + 1) []
      else if c = 108 then pyDecodeListF fuel data (i + 1) []
      else if c = 105 then
        match findFrom data 101 (i + 1) with
        | none => none
        | some e => (parseIntBytes (slice data (i + 1) e)).map (fun n => (.int n, e + 1))
      else
        match findFrom data 58 i with
        | none => none
        | some colon =>
          match parseIntBytes (slice data i colon) with
          | some (Int.ofNat len) =>
            some (.bytes (slice data (colon + 1) (colon + 1 + len)), colon + 1 + len)
          | _ => none

/-- The `l` production's item loop. -/
def pyDecodeListF : Nat → List Nat → Nat → List PyVal → Option (PyVal × Nat)
  | 0, _, _, _ => none
  | fuel + 1, data, i, acc =>
    match data[i]? with
    | none => none
    | some c =>
      if c = 101 then some (.list acc, i + 1)
      else
        match pyDecodeF fuel data i with
        | none => none
        | some (v, i') => pyDecodeListF fuel data i' (acc ++ [v])

/-- The `d` production's entry loop: `result[key.decode()] = value`
(keys must be byte strings or `.decode()` raises). -/
def pyDecodeDictF : Nat → List Nat → Nat → List (String × PyVal) →
    Option (PyVal × Nat)
  | 0, _, _, _ => none
  | fuel + 1, data, i, acc =>
    match data[i]? with
    | none => none
    | some c =>
      if c = 101 then some (.dict acc, i + 1)
      else
        match pyDecodeF fuel data i with
        | some (.bytes k, i') =>
          match pyDecodeF fuel data i' with
          | none => none
          | some (v, i'') => pyDecodeDictF fuel data i'' (pdictSet acc (asciiDecode k) v)
        | _ => none

end

/-- Python's `str()` rendering of a decoded value, as bytes
(`str(info).encode()`): dicts as `\x7b'key': value, ...\x7d`, lists as
`[a, b]`, ints in decimal, and byte strings in `repr` form `b'...'`.
Modelled for byte strings of printable ASCII without quote or backslash
characters (true of every input it is evaluated on here), where `repr`
adds no escapes. -/
def pyStrF : Nat → PyVal → List Nat
  | 0, _ => []
  | fuel + 1, v =>
    match v with
    | .bytes bs => 98 :: 39 :: bs ++ [39]
    | .int n => intDecimal n
    | .list items => 91 :: List.intercalate [44, 32] (items.map (pyStrF fuel)) ++ [93]
    | .dict es =>
      123 :: List.intercalate [44, 32]
        (es.map (fun p => 39 :: strBytes p.1 ++ [39, 58, 32] ++ pyStrF fuel p.2))
        ++ [125]

/-- The parsed `TorrentMetadata` record of `src/torrent.py`
(`files` entries are `(joined path bytes, length)`; the optional
`md5sum`/`private`/`created_by`/`creation_date`/`comment` fields are
get-with-default reads not involved in any claim). -/
structure TorrentMetadata where
  announce : List Nat
  infoHash : List Nat
  name : List Nat
  files : List (List Nat × Int)
  pieceLength : Int
  pieces : List (List Nat)
deriving DecidableEq, Repr

/-- `TorrentMetadata._parse_info` given the decoded top-level value;
`fuel` bounds the `str` rendering depth (the input length suffices). -/
def metaParseInfo (fuel : Nat) (d : PyVal) : Option TorrentMetadata := do
  let dd ← match d with
    | .dict dd => some dd
    | _ => none
  let announceV ← pdictGet dd "announce"
  let announce ← match announceV with
    | .bytes b => some b
    | _ => none
  let info ← pdictGet dd "info"
  let infoHash := sha1 (pyStrF fuel info)
  let ii ← match info with
    | .dict ii => some ii
    | _ => none
  let nameB ← match pdictGet ii "name" with
    | some (.bytes b) => some b
    | _ => none
  let files ← match pdictGet ii "files" with
    | some (.list fs) =>
      fs.foldr (fun f acc => match f, acc with
        | PyVal.dict fe, some l =>
          (match pdictGet fe "path" with
            | some (.list ss) =>
              ss.foldr (fun s a => match s, a with
                | PyVal.bytes b, some bl => some (b :: bl)
                | _, _ => none) (some ([] : List (List Nat)))
            | _ => none).bind (fun segs =>
          (match segs with
            | [] => none
            | _ => some (List.intercalate [47] segs)).bind (fun path =>
          (match pdictGet fe "length" with
            | some (.int n) => some n
            | _ => none).bind (fun len =>
          some ((path, len) :: l))))
        | _, _ => none) (some [])
    | some _ => none
    | none =>
      (match pdictGet ii "length" with
        | some (.int n) => some n
        | _ => none).bind (fun len => some [(nameB, len)])
  let pl ← match pdictGet ii "piece length" with
    | some (.int n) => some n
    | _ => none
  let piecesB ← match pdictGet ii "pieces" with
    | some (.bytes b) => some b
    | _ => none
  return { announce := announce, infoHash := infoHash, name := nameB,
           files := files, pieceLength := pl, pieces := chunksOf 20 piecesB }

/-- `TorrentMetadata.from_file` on raw file bytes: decode (trailing
bytes ignored), then `_parse_info`. -/
def metaParse (data : List Nat) : Option TorrentMetadata :=
  (pyDecodeF (data.length + 1) data 0).bind
    (fun p => metaParseInfo (data.length + 1) p.1)

/-! ### `src/core/piece_manager.py` — the piece/block state machine

State is passed explicitly.  `_initiate_pieces` builds ONE
`std_piece_blocks` list and makes every non-last piece reference that
same list object, so the state record stores the two block stores
(`stdBlocks`, shared by all non-last pieces, and `lastBlocks` for the
final piece) and each piece's blocks are looked up through `blocksOf`,
preserving the source's aliasing. -/

/-- `Block.status`: `MISSING = 0`, `PENDING = 1`, `RETRIEVED = 2`. -/
inductive BStatus where
  | missing
  | pending
  | retrieved
deriving DecidableEq, Repr

/-- A `Block`: piece index field, offset within the piece, length, the
payload once retrieved, and the status. -/
structure Block where
  piece : Nat
  offset : Nat
  length : Nat
  data : Option (List Nat)
  status : BStatus
deriving DecidableEq, Repr

/-- A `Piece` object minus its block list (held in the shared stores):
index, expected hash, `is_complete`. -/
structure PieceMeta where
  index : Nat
  hash : List Nat
  isComplete : Bool
deriving DecidableEq, Repr

/-- The `PieceManager` state: torrent, the two block stores, the
missing/completed piece lists, and the log of `(seek position, bytes)`
writes issued on the single output file descriptor. -/
structure PMState where
  torrent : Torrent
  stdBlocks : List Block
  lastBlocks : List Block
  missingPieces : List PieceMeta
  completedPieces : List PieceMeta
  writes : List (Nat × List Nat)
deriving DecidableEq, Repr

/-- The block list a piece references: every piece except the last got
the one shared `std_piece_blocks` object; the last piece its own list. -/
def blocksOf (st : PMState) (p : PieceMeta) : List Block :=
  if p.index < st.torrent.pieces.length - 1 then st.stdBlocks else st.lastBlocks

/-- Replace the block list a piece references (a mutation of the shared
object in the source). -/
def setBlocksOf (st : PMState) (p : PieceMeta) (bs : List Block) : PMState :=
  if p.index < st.torrent.pieces.length - 1 then { st with stdBlocks := bs }
  else { st with lastBlocks := bs }

/-- `PieceManager._create_blocks`: decompose `pieceLength` bytes into
standard-size blocks (final block truncated to the remainder), every
block labelled with `pieceIndex`. -/
def createBlocks (t : Torrent) (pieceIndex pieceLength : Nat) : List Block :=
  let numBlocks := pieceLength / t.blockLength +
    (if pieceLength % t.blockLength ≠ 0 then 1 else 0)
  (List.range numBlocks).map (fun i =>
    let offset := i * t.blockLength
    { piece := pieceIndex, offset := offset,
      length := min t.blockLength (pieceLength - offset),
      data := none, status := .missing })

/-- `PieceManager.__init__` / `_initiate_pieces`: one shared
`std_piece_blocks = _create_blocks(total_pieces - 1, piece_length)`
list for all non-last pieces, and for the last piece
`_create_blocks(index, total_size % piece_length)` — no special case
when the remainder is zero.  (For an empty pieces list the Python index
`total_pieces - 1` is `-1`; the resulting blocks are referenced by no
piece either way.) -/
def initiatePieces (t : Torrent) : PMState :=
  let std := createBlocks t (t.pieces.length - 1) t.pieceLength
  let lastLen := t.totalSize % t.pieceLength
  let last := createBlocks t (t.pieces.length - 1) lastLen
  { torrent := t, stdBlocks := std, lastBlocks := last,
    missingPieces := (t.pieces.enum).map (fun p => ⟨p.1, p.2, false⟩),
    completedPieces := [], writes := [] }

/-- `b''.join(block.data for block in piece.blocks)` (a retrieved block
always carries data; absent data joins as empty). -/
def concatData (bs : List Block) : List Nat :=
  (bs.map (fun b => b.data.getD [])).flatten

/-- `PieceManager._validate_piece`: SHA-1 of the concatenated block
data against the piece's expected hash. -/
def validatePiece (st : PMState) (p : PieceMeta) : Bool :=
  sha1 (concatData (blocksOf st p)) = p.hash

/-- `PieceManager._write_piece`'s loop body over `torrent.files`
(single output descriptor): `file_offset` is the piece's global byte
offset, recomputed identically each iteration; files with
`length <= file_offset` are skipped, otherwise the next slice of the
piece data is written at seek position `file['offset'] + file_offset`. -/
def writePieceCoreGo (pieceOffset : Nat) : List TFile → List Nat → List (Nat × List Nat)
  | [], _ => []
  | f :: rest, pieceData =>
    if f.length ≤ pieceOffset then writePieceCoreGo pieceOffset rest pieceData
    else
      let dw := pieceData.take (min pieceData.length (f.length - pieceOffset))
      (f.offset + pieceOffset, dw) ::
        (if pieceData.drop dw.length = [] then []
         else writePieceCoreGo pieceOffset rest (pieceData.drop dw.length))

/-- Remove the first piece with the given index (`missing_pieces.remove(piece)`). -/
def removePiece : List PieceMeta → Nat → List PieceMeta
  | [], _ => []
  | p :: ps, i => if p.index = i then ps else p :: removePiece ps i

/-- `PieceManager._check_piece_completion`: once every block is
Retrieved, validate; on a hash match write the piece, move it from the
missing to the completed list and mark `is_complete`; on a mismatch
reset every block of the piece to Missing with its data cleared. -/
def checkPieceCompletion (st : PMState) (p : PieceMeta) : PMState :=
  let bs := blocksOf st p
  if bs.all (fun b => b.status = .retrieved) then
    if validatePiece st p then
      let pieceData := concatData bs
      let ws := writePieceCoreGo (p.index * st.torrent.pieceLength) st.torrent.files pieceData
      let st1 := { st with writes := st.writes ++ ws }
      { st1 with missingPieces := removePiece st1.missingPieces p.index,
                 completedPieces := st1.completedPieces ++ [{ p with isComplete := true }] }
    else
      setBlocksOf st p (bs.map (fun b => { b with status := .missing, data := none }))
  else st

/-- The in-place update performed by `block_received` on the matched
block: store the data and mark it Retrieved. -/
def markReceived (st : PMState) (p : PieceMeta) (j : Nat) (data : List Nat) : PMState :=
  setBlocksOf st p ((blocksOf st p).mapIdx (fun i b =>
    if i = j then { b with data := some data, status := BStatus.retrieved } else b))

/-- `PieceManager.block_received`: locate the first missing piece with
the given index, then its first block with the given offset, store the
data, mark Retrieved and run the completion check; otherwise a no-op. -/
def blockReceived (st : PMState) (pieceIndex blockOffset : Nat) (data : List Nat) : PMState :=
  match st.missingPieces.find? (fun p => p.index = pieceIndex) with
  | none => st
  | some p =>
    match (blocksOf st p).findIdx? (fun b => b.offset = blockOffset) with
    | none => st
    | some j => checkPieceCompletion (markReceived st p j data) p

/-- The Python error surfaced by `next_request` when the bitfield is
shorter than a piece index. -/
inductive PyErr where
  | indexError
deriving DecidableEq, Repr

/-- Mark the first Missing block Pending and return the (mutated) block
together with the updated list, or `none` when no block is Missing. -/
def markFirstMissing : List Block → Option (Block × List Block)
  | [] => none
  | b :: bs =>
    if b.status = .missing then
      let b' := { b with status := BStatus.pending }
      some (b', b' :: bs)
    else (markFirstMissing bs).map (fun r => (r.1, b :: r.2))

/-- `PieceManager.next_request`'s scan over `missing_pieces`:
`peer_bitfield[piece.index]` raises `IndexError` out of range, an unset
bit or a piece with no Missing block moves on, and the first Missing
block found is marked Pending and returned. -/
def nextRequestGo (bf : List Bool) (st : PMState) :
    List PieceMeta → Except PyErr (Option Block × PMState)
  | [] => .ok (none, st)
  | p :: rest =>
    match bf[p.index]? with
    | none => .error .indexError
    | some bit =>
      if bit then
        match markFirstMissing (blocksOf st p) with
        | none => nextRequestGo bf st rest
        | some r => .ok (some r.1, setBlocksOf st p r.2)
      else nextRequestGo bf st rest

/-- `PieceManager.next_request`: an empty (falsy) bitfield returns
`None` at once. -/
def nextRequest (bf : List Bool) (st : PMState) : Except PyErr (Option Block × PMState) :=
  if bf = [] then .ok (none, st) else nextRequestGo bf st st.missingPieces

/-- `PieceManager.get_completion`: completed pieces (counting their
`is_complete` flags) over `total_pieces`, `0` when there are no pieces. -/
def getCompletion (st : PMState) : ℚ :=
  if st.torrent.pieces.length > 0 then
    (st.completedPieces.countP (fun p => p.isComplete) : ℚ) / st.torrent.pieces.length
  else 0

/-! ### `src/src/client.py` — `BitTorrentClient._write_piece`

The multi-file mapping of a downloaded piece onto output files,
returned as the list of `(file index, in-file offset, chunk)` writes it
performs (paths and directory creation are I/O, not modelled). -/

/-- The loop of `BitTorrentClient._write_piece` over the torrent's file
lengths: skip whole files before the piece start, then write successive
slices of the remaining data at the computed in-file offsets, stopping
once nothing remains. -/
def writePieceGo : List Nat → Nat → Nat → List Nat → List (Nat × Nat × List Nat)
  | [], _, _, _ => []
  | flen :: rest, idx, pieceStart, remaining =>
    if flen ≤ pieceStart then writePieceGo rest (idx + 1) (pieceStart - flen) remaining
    else
      let chunk := remaining.take (flen - pieceStart)
      (idx, pieceStart, chunk) ::
        (if remaining.drop (flen - pieceStart) = [] then []
         else writePieceGo rest (idx + 1) 0 (remaining.drop (flen - pieceStart)))

/-- `BitTorrentClient._write_piece(torrent, piece_index, data)` with
`piece_start = piece_index * torrent.piece_length`. -/
def writePieceClient (fileLengths : List Nat) (pieceLength pieceIndex : Nat)
    (data : List Nat) : List (Nat × Nat × List Nat) :=
  writePieceGo fileLengths 0 (pieceIndex * pieceLength) data

/-! ### `src/src/client.py` — `BitTorrentClient._parse_peers` -/

/-- The loop of `_parse_peers`: consume complete 6-byte groups (dotted
IPv4 from the first 4 bytes, big-endian port from the last 2) and stop
at a residual shorter than 6 bytes. -/
def parsePeersAux : Nat → List Nat → List (String × Nat)
  | 0, _ => []
  | fuel + 1, a :: b :: c :: d :: e :: f :: rest =>
    (String.intercalate "." ([a, b, c, d].map toString), e * 256 + f)
      :: parsePeersAux fuel rest
  | _ + 1, _ => []

/-- `BitTorrentClient._parse_peers` on a compact byte string. -/
def parsePeers (data : List Nat) : List (String × Nat) :=
  parsePeersAux data.length data

/-! ### `src/core/peer.py` — `PeerConnection._handshake` validation -/

/-- The 20-byte handshake literal `b'\x13BitTorrent protocol'`. -/
def handshakePrefix : List Nat := 19 :: strBytes "BitTorrent protocol"

/-- The response checks of `PeerConnection._handshake`: reject unless
the response is exactly 68 bytes, its first 20 bytes equal the protocol
literal, and bytes `28:48` equal the expected info hash. -/
def handshakeOk (infoHash response : List Nat) : Bool :=
  if response.length ≠ 68 then false
  else if response.take 20 ≠ handshakePrefix then false
  else if slice response 28 48 ≠ infoHash then false
  else true

/-! ### `src/utils/network_utils.py` — `request_windows_firewall_rule`

Modelled with the host platform name as an explicit argument and the
system side effect as the list of commands issued. -/

/-- `request_windows_firewall_rule(app_path, app_name)`: on a platform
other than `Windows` it returns `False` immediately with no action;
on Windows it issues the elevated `netsh` rule-add command and returns
`True` (the `except` fallback needs `ShellExecuteW` itself to fail). -/
def requestWindowsFirewallRule (platformSystem appPath appName : String) :
    Bool × List String :=
  if platformSystem ≠ "Windows" then (false, [])
  else
    let command := "netsh advfirewall firewall add rule name=\"" ++ appName
      ++ "\" dir=in action=allow program=\"" ++ appPath
      ++ "\" enable=yes profile=any"
    (true, [command])

/-! ### `src/src/client.py` — `download_torrent` / `pause_torrent`

The cooperative single-scheduler concurrency is embedded by running the
download loop against an environment that says at which per-piece
iteration boundary an external `pause_torrent` call takes effect
(`pausedAt`), which iterations' piece attempts succeed (`pieceOk`), how
many peers the tracker returned, and at which iteration the body raises
(`raiseAt`).  Status assignments, piece attempts and completed disk
writes are recorded as logs. -/

/-- Orchestrator state: stored torrents (by hash), the
`active_downloads` set, and the logs of status assignments, per-piece
download attempts and pieces fully written to disk. -/
structure ClientState where
  torrents : List String
  active : List String
  statuses : List (String × String)
  attempts : List Nat
  disk : List Nat
deriving DecidableEq, Repr

/-- One download run's environment (tracker outcome, per-piece results,
and the boundaries where external events land). -/
structure DlEnv where
  numPieces : Nat
  peerCount : Nat
  pieceOk : Nat → Bool
  pausedAt : Option Nat
  raiseAt : Option Nat

/-- `BitTorrentClient.pause_torrent`: discard from `active_downloads`
and set status `Paused`. -/
def pauseTorrent (st : ClientState) (h : String) : ClientState :=
  { st with active := st.active.erase h,
            statuses := st.statuses ++ [(h, "Paused")] }

/-- Python `set.add`. -/
def setAdd (l : List String) (h : String) : List String :=
  if h ∈ l then l else h :: l

/-- The per-piece loop of `download_torrent` over the remaining piece
indices: an external pause scheduled at this boundary runs first, then
the `info_hash not in active_downloads` check breaks, then the piece is
attempted (and written on success) unless the body raises here.  The
Boolean result reports an escaped exception. -/
def dlLoop (h : String) (env : DlEnv) : List Nat → ClientState → ClientState × Bool
  | [], st => (st, false)
  | i :: rest, st =>
    let st1 := if env.pausedAt = some i then pauseTorrent st h else st
    if h ∈ st1.active then
      if env.raiseAt = some i then ({ st1 with attempts := st1.attempts ++ [i] }, true)
      else
        let st2 := { st1 with attempts := st1.attempts ++ [i] }
        let st3 := if env.pieceOk i then { st2 with disk := st2.disk ++ [i] } else st2
        dlLoop h env rest st3
    else (st1, false)

/-- The tail of `download_torrent`'s `try`/`except` body after the
per-piece loop: an escaped exception reaches the `except` branch
(status `Error`); otherwise `Completed` is set only when the hash is
still in the active set (an external pause may also land at this last
boundary first). -/
def dlAfterLoop (h : String) (env : DlEnv) (r : ClientState × Bool) : ClientState :=
  if r.2 then { r.1 with statuses := r.1.statuses ++ [(h, "Error")] }
  else
    let st2 := if env.pausedAt = some env.numPieces then pauseTorrent r.1 h else r.1
    if h ∈ st2.active then { st2 with statuses := st2.statuses ++ [(h, "Completed")] }
    else st2

/-- The `try`/`except` body of `download_torrent`: an empty peer list
raises `NoPeersAvailable` into the `except` branch (status `Error`);
otherwise status `Downloading` is pushed, the per-piece loop runs and
`dlAfterLoop` finishes the run. -/
def dlBody (st0 : ClientState) (h : String) (env : DlEnv) : ClientState :=
  if env.peerCount = 0 then
    { st0 with statuses := st0.statuses ++ [(h, "Error")] }
  else
    dlAfterLoop h env (dlLoop h env (List.range env.numPieces)
      { st0 with statuses := st0.statuses ++ [(h, "Downloading")] })

/-- `BitTorrentClient.download_torrent`: no-op when already active;
otherwise add to the active set, return at once when the hash is not a
stored torrent (NOTE: before the `try`/`finally`), then run the body
with the `finally` discarding the hash from the active set. -/
def downloadTorrent (st : ClientState) (h : String) (env : DlEnv) : ClientState :=
  if h ∈ st.active then st
  else
    let st0 := { st with active := setAdd st.active h }
    if h ∉ st0.torrents then st0
    else
      let stB := dlBody st0 h env
      { stB with active := stB.active.erase h }

/-! ## Theorems -/

/-! ### C1 — info-hash computation -/

/-- A valid single-file `.torrent` byte string (keys in sorted bencode
order): announce `url`, name `x`, length `4`, piece length `16`, one
20-byte piece hash of `a` bytes. -/
def c1Input : List Nat :=
  strBytes "d8:announce3:url4:infod6:lengthi4e4:name1:x12:piece lengthi16e6:pieces20:"
    ++ List.replicate 20 97 ++ strBytes "ee"

/-- The exact byte range of `c1Input` holding its `info` dictionary. -/
def c1InfoSlice : List Nat := (c1Input.drop 22).take 72

/-- C1: the claim requires every parse to compute `info_hash` as the
SHA-1 of the exact bencode re-encoding of the `info` dictionary, never
of a string rendering.  `Torrent._parse` (src/core/torrent.py) does —
its hash of the bencodepy re-encoding equals the SHA-1 of the literal
`info` byte slice — but `TorrentMetadata._parse_info` (src/torrent.py)
hashes `str(info).encode()`, the Python repr rendering, and its
`info_hash` for the same input differs from that digest. -/
theorem c1_info_hash_string_rendering_bug :
    c1InfoSlice = slice c1Input 22 94 ∧
    (coreParse c1Input).map (fun t => t.infoHash) = some (sha1 c1InfoSlice) ∧
    (metaParse c1Input).map (fun m => m.infoHash) ≠ some (sha1 c1InfoSlice) := by
  decide

/-! ### C4 — `next_request` and the peer bitfield -/

/-- A two-piece torrent (piece length 16384, total size 16484, so the
last piece holds 100 bytes): `_initiate_pieces` labels the standard
block, shared by piece 0, with piece index `total_pieces - 1 = 1`. -/
def c4Torrent : Torrent :=
  { announce := "udp://t", infoHash := [], pieceLength := 16384,
    pieces := [List.replicate 20 0, List.replicate 20 1],
    blockLength := 16384, files := [⟨"f", 16484, 0⟩], totalSize := 16484,
    outputFile := "f" }

/-- C4: refuted on the code.  With bitfield `[true, false]` (peer has
only piece 0) `next_request` returns a Block whose `piece` field — its
parent piece index — is `1`, a piece whose bit is unset, because
`_initiate_pieces` created every standard block with piece index
`total_pieces - 1`.  And a non-empty all-zero bitfield shorter than a
missing piece's index raises `IndexError` instead of returning `None`. -/
theorem c4_next_request_violations :
    ((nextRequest [true, false] (initiatePieces c4Torrent)).toOption.map
      (fun r => r.1.map (fun b => (b.piece, b.status)))) =
        some (some (1, BStatus.pending)) ∧
    (nextRequest [false] (initiatePieces c4Torrent)).toOption = none := by
  decide

/-! ### C7 — last-piece length at an exact piece_length multiple -/

/-- A torrent whose `total_size = 32768` is an exact multiple of
`piece_length = 16384`, with two piece hashes. -/
def c7Torrent : Torrent :=
  { announce := "udp://t", infoHash := [], pieceLength := 16384,
    pieces := [List.replicate 20 0, List.replicate 20 1],
    blockLength := 16384, files := [⟨"f", 32768, 0⟩], totalSize := 32768,
    outputFile := "f" }

/-- C7: refuted on the code.  `_initiate_pieces` gives the last piece
`_create_blocks(index, total_size % piece_length)` blocks with no
special case for a zero remainder, so at an exact multiple the last
piece has an empty block list whose lengths sum to `0`, not
`piece_length`, and `(len(pieces)-1)*piece_length + lastPieceLength`
falls short of `total_size`. -/
theorem c7_zero_remainder_last_piece :
    c7Torrent.totalSize % c7Torrent.pieceLength = 0 ∧
    (initiatePieces c7Torrent).lastBlocks = [] ∧
    (c7Torrent.pieces.length - 1) * c7Torrent.pieceLength +
      (((initiatePieces c7Torrent).lastBlocks.map (fun b => b.length)).sum)
      ≠ c7Torrent.totalSize := by
  decide

/-! ### C9 — firewall-rule request on non-Windows platforms -/

/-- C9 counterexample: the claim says the call returns true on a
platform other than Windows; on `Linux` the function returns `False`
(`if platform.system() != 'Windows': return False`). -/
theorem c9_counterexample_returns_false :
    (requestWindowsFirewallRule "Linux" "/usr/local/bin/bruvtorrent" "BruvTorrent").1
      = false := by
  decide

/-- C9 amended: on every platform other than Windows the firewall-rule
request performs no system action and returns false. -/
theorem c9_non_windows_noop_returns_false (platformSystem appPath appName : String)
    (hp : platformSystem ≠ "Windows") :
    requestWindowsFirewallRule platformSystem appPath appName = (false, []) := by
  simp [requestWindowsFirewallRule, hp]

/-- Witness for C9 amended at platform `Darwin`. -/
theorem c9_non_windows_noop_returns_false_witness :
    requestWindowsFirewallRule "Darwin" "/app/bt" "BruvTorrent" = (false, []) :=
  c9_non_windows_noop_returns_false "Darwin" "/app/bt" "BruvTorrent" (by decide)

/-! ### C5 — handshake validation -/

/-- C5: `PeerConnection._handshake` rejects every response that is not
exactly 68 bytes (in particular 67), every 68-byte response whose first
20 bytes differ from `\x13BitTorrent protocol`, and every 68-byte
response whose bytes 28–47 differ from the expected info hash, and
accepts every 68-byte response with the correct literal and matching
info hash. -/
theorem c5_handshake_validator (ih resp : List Nat) :
    (resp.length = 67 → handshakeOk ih resp = false) ∧
    (resp.length = 68 → resp.take 20 ≠ handshakePrefix → handshakeOk ih resp = false) ∧
    (resp.length = 68 → slice resp 28 48 ≠ ih → handshakeOk ih resp = false) ∧
    (resp.length = 68 → resp.take 20 = handshakePrefix → slice resp 28 48 = ih →
      handshakeOk ih resp = true) := by
  refine ⟨fun h67 => ?_, fun _ hp => ?_, fun h68 hh => ?_, fun h68 hp hh => ?_⟩ <;>
    simp_all [handshakeOk]

/-- A well-formed 68-byte handshake response for the all-7 info hash. -/
def c5GoodResp : List Nat :=
  handshakePrefix ++ List.replicate 8 0 ++ List.replicate 20 7 ++ List.replicate 20 3

/-- Witness for C5 at concrete responses: a 67-byte truncation, an
altered protocol literal, a wrong info hash, and the well-formed case. -/
theorem c5_handshake_validator_witness :
    handshakeOk (List.replicate 20 7) (c5GoodResp.take 67) = false ∧
    handshakeOk (List.replicate 20 7) (0 :: c5GoodResp.drop 1) = false ∧
    handshakeOk (List.replicate 20 8) c5GoodResp = false ∧
    handshakeOk (List.replicate 20 7) c5GoodResp = true :=
  ⟨(c5_handshake_validator (List.replicate 20 7) (c5GoodResp.take 67)).1 (by decide),
   (c5_handshake_validator (List.replicate 20 7) (0 :: c5GoodResp.drop 1)).2.1
     (by decide) (by decide),
   (c5_handshake_validator (List.replicate 20 8) c5GoodResp).2.2.1 (by decide) (by decide),
   (c5_handshake_validator (List.replicate 20 7) c5GoodResp).2.2.2
     (by decide) (by decide) (by decide)⟩

/-! ### C2 — multi-file piece write mapping -/

/-- C2 counterexample: for files `[100, 250, 50]` and
`piece_length = 128`, piece 1 (global bytes `[128, 256)`) lies entirely
inside the second file — `_write_piece` performs the single write
`(file 1, offset 28, all 128 bytes)` and no write to the first file,
whereas the claim asserts its first 72 bytes go to the first file at
offsets `[28, 100)`. -/
theorem c2_counterexample :
    writePieceClient [100, 250, 50] 128 1 (List.range 128) =
      [(1, 28, List.range 128)] ∧
    (0, 28, (List.range 128).take 72) ∉
      writePieceClient [100, 250, 50] 128 1 (List.range 128) := by
  decide

/-- Correctness of `_write_piece`'s loop: when the piece's byte range
fits inside the files and the data is non-empty, the chunks written
concatenate to exactly the piece data, and every write lands inside its
file at the in-file offset whose global position
(`sum of earlier file lengths + offset`) matches the piece position of
the slice it carries. -/
theorem writePieceGo_correct (fs : List Nat) :
    ∀ (idx start : Nat) (data : List Nat), data ≠ [] → start + data.length ≤ fs.sum →
    ((writePieceGo fs idx start data).map (fun w => w.2.2)).flatten = data ∧
    ∀ w ∈ writePieceGo fs idx start data, ∃ j k,
      w.1 = idx + j ∧ j < fs.length ∧
      w.2.2 = (data.drop k).take w.2.2.length ∧
      (fs.take j).sum + w.2.1 = start + k ∧
      w.2.1 + w.2.2.length ≤ fs.getD j 0 := by
  induction fs with
  | nil =>
    intro idx start data hne hle
    exfalso
    have hpos : 0 < data.length := List.length_pos.mpr hne
    simp only [List.sum_nil, Nat.le_zero] at hle
    omega
  | cons f rest ih =>
    intro idx start data hne hle
    rw [List.sum_cons] at hle
    by_cases hskip : f ≤ start
    · have hle' : (start - f) + data.length ≤ rest.sum := by omega
      obtain ⟨hflat, hw⟩ := ih (idx + 1) (start - f) data hne hle'
      simp only [writePieceGo, if_pos hskip]
      refine ⟨hflat, fun w hwmem => ?_⟩
      obtain ⟨j, k, h1, h2, h3, h4, h5⟩ := hw w hwmem
      refine ⟨j + 1, k, by omega, by simp only [List.length_cons]; omega, h3, ?_, ?_⟩
      · rw [List.take_succ_cons, List.sum_cons]; omega
      · simpa using h5
    · have hlt : start < f := by omega
      by_cases hrem : data.drop (f - start) = []
      · have hdlen : data.length ≤ f - start := List.drop_eq_nil_iff.mp hrem
        have hall : data.take (f - start) = data := List.take_of_length_le hdlen
        simp only [writePieceGo, if_neg hskip, if_pos hrem]
        refine ⟨by simp [hall], fun w hwmem => ?_⟩
        have hw : w = (idx, start, data.take (f - start)) := by simpa using hwmem
        subst hw
        refine ⟨0, 0, by simp, by simp, ?_, by simp, ?_⟩
        · simp only [hall, List.drop_zero]
          exact (List.take_of_length_le (Nat.le_refl _)).symm
        · simp only [hall, List.getD_cons_zero]
          omega
      · have hdlen : f - start < data.length := by
          by_contra hc
          exact hrem (List.drop_eq_nil_iff.mpr (by omega))
        have hchlen : (data.take (f - start)).length = f - start := by
          simp only [List.length_take]
          omega
        have hremlen : (data.drop (f - start)).length = data.length - (f - start) := by
          simp
        have hle' : 0 + (data.drop (f - start)).length ≤ rest.sum := by omega
        obtain ⟨hflat, hw⟩ := ih (idx + 1) 0 (data.drop (f - start)) hrem hle'
        simp only [writePieceGo, if_neg hskip, if_neg hrem]
        constructor
        · simp only [List.map_cons, List.flatten_cons, hflat]
          exact List.take_append_drop _ data
        · intro w hwmem
          rcases List.mem_cons.mp hwmem with hhead | htail
          · subst hhead
            refine ⟨0, 0, by simp, by simp, ?_, by simp, ?_⟩
            · simp only [List.drop_zero, hchlen]
            · simp only [List.getD_cons_zero, hchlen]
              omega
          · obtain ⟨j, k, h1, h2, h3, h4, h5⟩ := hw w htail
            refine ⟨j + 1, (f - start) + k, by omega,
              by simp only [List.length_cons]; omega, ?_, ?_, ?_⟩
            · conv_lhs => rw [h3]
              rw [List.drop_drop]
            · rw [List.take_succ_cons, List.sum_cons]
              omega
            · simpa using h5

/-- C2 amended: for files `[100, 250, 50]` and `piece_length = 128`,
writing piece 1 (global bytes `[128, 256)`) performs the single write
of all 128 bytes at in-file offsets `[28, 156)` of the second file (the
piece lies wholly inside it); and in general, for every piece whose
byte range lies within the files, `_write_piece` splits the piece data
at file boundaries, writing each slice inside its file at the in-file
offset whose global position matches the slice's position in the
piece. -/
theorem c2_piece_write_splits_at_file_boundaries (fs : List Nat) (pl idx : Nat)
    (data : List Nat) (hne : data ≠ []) (hin : idx * pl + data.length ≤ fs.sum) :
    (((writePieceClient fs pl idx data).map (fun w => w.2.2)).flatten = data ∧
     ∀ w ∈ writePieceClient fs pl idx data, ∃ j k,
       w.1 = j ∧ j < fs.length ∧
       w.2.2 = (data.drop k).take w.2.2.length ∧
       (fs.take j).sum + w.2.1 = idx * pl + k ∧
       w.2.1 + w.2.2.length ≤ fs.getD j 0) ∧
    writePieceClient [100, 250, 50] 128 1 (List.range 128) =
      [(1, 28, List.range 128)] := by
  refine ⟨?_, by decide⟩
  obtain ⟨hflat, hw⟩ := writePieceGo_correct fs 0 (idx * pl) data hne hin
  refine ⟨hflat, fun w hwmem => ?_⟩
  obtain ⟨j, k, h1, h2, h3, h4, h5⟩ := hw w hwmem
  exact ⟨j, k, by omega, h2, h3, h4, h5⟩

/-- Witness for C2 amended at the concrete multi-file example. -/
theorem c2_piece_write_splits_witness :
    ((writePieceClient [100, 250, 50] 128 0 (List.range 128)).map
      (fun w => w.2.2)).flatten = List.range 128 :=
  ((c2_piece_write_splits_at_file_boundaries [100, 250, 50] 128 0 (List.range 128)
    (by decide) (by decide)).1).1

/-! ### C6 — compact peer-list parsing -/

/-- Fuel irrelevance for `parsePeersAux`: any two fuels at least the
input length compute the same peer list. -/
theorem parsePeersAux_fuel (f1 : Nat) :
    ∀ (f2 : Nat) (data : List Nat), data.length ≤ f1 → data.length ≤ f2 →
      parsePeersAux f1 data = parsePeersAux f2 data := by
  induction f1 with
  | zero =>
    intro f2 data h1 _
    have hdata : data = [] := List.eq_nil_of_length_eq_zero (by omega)
    subst hdata
    cases f2 <;> rfl
  | succ f ih =>
    intro f2 data h1 h2
    cases f2 with
    | zero =>
      have hdata : data = [] := List.eq_nil_of_length_eq_zero (by omega)
      subst hdata
      rfl
    | succ g =>
      rcases data with _ | ⟨a, _ | ⟨b, _ | ⟨c, _ | ⟨d, _ | ⟨e, _ | ⟨x, rest⟩⟩⟩⟩⟩⟩
      · rfl
      · rfl
      · rfl
      · rfl
      · rfl
      · rfl
      · simp only [parsePeersAux]
        congr 1
        refine ih g rest ?_ ?_ <;> simp only [List.length_cons] at h1 h2 <;> omega

/-- C6: compact peer-list parsing decodes the 12-byte example to the
two expected `(ip, port)` pairs; every complete 6-byte group at the
front parses to the dotted quad of its first 4 bytes with the
big-endian port of its last 2; and every residual shorter than 6 bytes
yields the empty list without an error. -/
theorem c6_parse_peers :
    parsePeers [192, 168, 1, 1, 26, 225, 10, 0, 0, 5, 26, 225] =
      [("192.168.1.1", 6881), ("10.0.0.5", 6881)] ∧
    (∀ (a b c d e f : Nat) (rest : List Nat),
      parsePeers (a :: b :: c :: d :: e :: f :: rest) =
        (String.intercalate "." ([a, b, c, d].map toString), e * 256 + f)
          :: parsePeers rest) ∧
    (∀ r : List Nat, r.length < 6 → parsePeers r = []) := by
  refine ⟨by decide, fun a b c d e f rest => ?_, fun r hr => ?_⟩
  · show parsePeersAux (a :: b :: c :: d :: e :: f :: rest).length _ = _
    simp only [List.length_cons]
    simp only [show rest.length + 1 + 1 + 1 + 1 + 1 + 1 = (rest.length + 5) + 1 from rfl,
      parsePeersAux]
    congr 1
    exact parsePeersAux_fuel (rest.length + 5) rest.length rest (by omega) (by omega)
  · rcases r with _ | ⟨a, _ | ⟨b, _ | ⟨c, _ | ⟨d, _ | ⟨e, _ | ⟨x, rest⟩⟩⟩⟩⟩⟩
    · rfl
    · rfl
    · rfl
    · rfl
    · rfl
    · rfl
    · simp only [List.length_cons] at hr
      omega

/-- Witness for C6 at a 9-byte input: one complete group parsed, the
3-byte residual discarded. -/
theorem c6_parse_peers_witness :
    parsePeers [7, 7, 7, 7, 26, 225, 9, 9, 9] =
      (String.intercalate "." ([7, 7, 7, 7].map toString), 26 * 256 + 225)
        :: parsePeers [9, 9, 9] ∧
    parsePeers [9, 9, 9] = [] :=
  ⟨(c6_parse_peers.2.1) 7 7 7 7 26 225 [9, 9, 9],
   (c6_parse_peers.2.2) [9, 9, 9] (by decide)⟩

/-! ### C3 — hash-mismatch whole-piece reset -/

/-- `setBlocksOf` leaves the torrent untouched. -/
theorem setBlocksOf_torrent (st : PMState) (p : PieceMeta) (bs : List Block) :
    (setBlocksOf st p bs).torrent = st.torrent := by
  unfold setBlocksOf
  split <;> rfl

/-- `setBlocksOf` leaves the missing-piece list untouched. -/
theorem setBlocksOf_missingPieces (st : PMState) (p : PieceMeta) (bs : List Block) :
    (setBlocksOf st p bs).missingPieces = st.missingPieces := by
  unfold setBlocksOf
  split <;> rfl

/-- `setBlocksOf` leaves the completed-piece list untouched. -/
theorem setBlocksOf_completedPieces (st : PMState) (p : PieceMeta) (bs : List Block) :
    (setBlocksOf st p bs).completedPieces = st.completedPieces := by
  unfold setBlocksOf
  split <;> rfl

/-- Reading back the block list just stored for the same piece. -/
theorem blocksOf_setBlocksOf_self (st : PMState) (p : PieceMeta) (bs : List Block) :
    blocksOf (setBlocksOf st p bs) p = bs := by
  unfold blocksOf setBlocksOf
  split <;> simp_all

/-- C3: when `block_received` stores a block that leaves its piece with
every block Retrieved but the SHA-1 of the concatenated data different
from the expected hash, the completion check resets every block of the
piece to Missing with its data cleared, the piece stays in the missing
list (so it is never marked complete), and the completed list — hence
`get_completion()` — is unchanged. -/
theorem c3_hash_mismatch_resets_piece (st : PMState)
    (pieceIndex blockOffset : Nat) (data : List Nat) (p : PieceMeta) (j : Nat)
    (hfind : st.missingPieces.find? (fun q => q.index = pieceIndex) = some p)
    (hidx : (blocksOf st p).findIdx? (fun b => b.offset = blockOffset) = some j)
    (hall : ∀ b ∈ blocksOf (markReceived st p j data) p, b.status = BStatus.retrieved)
    (hbad : sha1 (concatData (blocksOf (markReceived st p j data) p)) ≠ p.hash) :
    (∀ b ∈ blocksOf (blockReceived st pieceIndex blockOffset data) p,
        b.status = BStatus.missing ∧ b.data = none) ∧
    (blockReceived st pieceIndex blockOffset data).missingPieces = st.missingPieces ∧
    (blockReceived st pieceIndex blockOffset data).completedPieces = st.completedPieces ∧
    getCompletion (blockReceived st pieceIndex blockOffset data) = getCompletion st := by
  have hrec : blockReceived st pieceIndex blockOffset data =
      checkPieceCompletion (markReceived st p j data) p := by
    simp only [blockReceived, hfind, hidx]
  have hallb : ((blocksOf (markReceived st p j data) p).all
      (fun b => b.status = BStatus.retrieved)) = true := by
    rw [List.all_eq_true]
    intro b hb
    exact decide_eq_true (hall b hb)
  have hval : validatePiece (markReceived st p j data) p = false := by
    unfold validatePiece
    exact decide_eq_false hbad
  have hcheck : checkPieceCompletion (markReceived st p j data) p =
      setBlocksOf (markReceived st p j data) p
        ((blocksOf (markReceived st p j data) p).map
          (fun b => { b with status := BStatus.missing, data := none })) := by
    unfold checkPieceCompletion
    simp [hallb, hval]
  rw [hrec, hcheck]
  refine ⟨?_, ?_, ?_, ?_⟩
  · intro b hb
    rw [blocksOf_setBlocksOf_self] at hb
    obtain ⟨b0, _, rfl⟩ := List.mem_map.mp hb
    exact ⟨rfl, rfl⟩
  · rw [setBlocksOf_missingPieces]
    unfold markReceived
    rw [setBlocksOf_missingPieces]
  · rw [setBlocksOf_completedPieces]
    unfold markReceived
    rw [setBlocksOf_completedPieces]
  · unfold getCompletion
    rw [setBlocksOf_torrent, setBlocksOf_completedPieces]
    unfold markReceived
    rw [setBlocksOf_torrent, setBlocksOf_completedPieces]

/-- A one-piece torrent (piece length 2, total size 1: the single last
piece holds one 1-byte block) whose expected piece hash is 20 zero
bytes — which no data hashes to here. -/
def c3Torrent : Torrent :=
  { announce := "udp://t", infoHash := [], pieceLength := 2,
    pieces := [List.replicate 20 0], blockLength := 16384,
    files := [⟨"f", 1, 0⟩], totalSize := 1, outputFile := "f" }

/-- The single piece of `c3Torrent` as held in its missing list. -/
def c3Piece : PieceMeta := ⟨0, List.replicate 20 0, false⟩

/-- Witness for C3: delivering the final (only) block of the piece with
data whose SHA-1 differs from the expected hash resets the piece. -/
theorem c3_hash_mismatch_resets_piece_witness :
    (∀ b ∈ blocksOf (blockReceived (initiatePieces c3Torrent) 0 0 [97]) c3Piece,
        b.status = BStatus.missing ∧ b.data = none) ∧
    (blockReceived (initiatePieces c3Torrent) 0 0 [97]).missingPieces =
      (initiatePieces c3Torrent).missingPieces ∧
    (blockReceived (initiatePieces c3Torrent) 0 0 [97]).completedPieces =
      (initiatePieces c3Torrent).completedPieces ∧
    getCompletion (blockReceived (initiatePieces c3Torrent) 0 0 [97]) =
      getCompletion (initiatePieces c3Torrent) :=
  c3_hash_mismatch_resets_piece (initiatePieces c3Torrent) 0 0 [97] c3Piece 0
    (by decide) (by decide) (by decide) (by decide)

/-! ### C8 / C10 — pause and the active-download set -/

/-- `set.add` on a set not containing the element. -/
theorem setAdd_of_not_mem {l : List String} {h : String} (hn : h ∉ l) :
    setAdd l h = h :: l := by
  unfold setAdd
  rw [if_neg hn]

/-- A clean stretch of the download loop: with no raise and no pause
landing on its iterations, and the hash in the active set, the loop
attempts every piece in order, writes the successful ones, and touches
nothing else. -/
theorem dlLoop_no_pause (h : String) (env : DlEnv) (hraise : env.raiseAt = none) :
    ∀ (l : List Nat) (st : ClientState), (∀ i ∈ l, env.pausedAt ≠ some i) →
      h ∈ st.active →
      dlLoop h env l st =
        ({ st with attempts := st.attempts ++ l,
                   disk := st.disk ++ l.filter env.pieceOk }, false) := by
  intro l
  induction l with
  | nil => intro st _ _; simp [dlLoop]
  | cons i rest ih =>
    intro st hp hm
    have hpi : env.pausedAt ≠ some i := hp i (by simp)
    have hri : env.raiseAt ≠ some i := by rw [hraise]; simp
    simp only [dlLoop, if_neg hpi, if_pos hm, if_neg hri]
    by_cases hok : env.pieceOk i
    · rw [if_pos hok,
        ih { st with attempts := st.attempts ++ [i], disk := st.disk ++ [i] }
          (fun x hx => hp x (by simp [hx])) hm]
      simp [List.filter_cons, hok]
    · rw [if_neg hok,
        ih { st with attempts := st.attempts ++ [i] }
          (fun x hx => hp x (by simp [hx])) hm]
      simp [List.filter_cons, hok]

/-- The download loop when the pause lands at iteration `k` after a
clean prefix `l1`: the prefix is processed, the pause removes the hash
and records status `Paused`, and the membership check at boundary `k`
stops the loop. -/
theorem dlLoop_pause (h : String) (env : DlEnv) (k : Nat) (A : List String)
    (hraise : env.raiseAt = none) (hk : env.pausedAt = some k) (hA : h ∉ A) :
    ∀ (l1 l2 : List Nat) (st : ClientState), (∀ i ∈ l1, i ≠ k) →
      st.active = h :: A →
      dlLoop h env (l1 ++ k :: l2) st =
        ({ st with attempts := st.attempts ++ l1,
                   disk := st.disk ++ l1.filter env.pieceOk,
                   active := A,
                   statuses := st.statuses ++ [(h, "Paused")] }, false) := by
  intro l1
  induction l1 with
  | nil =>
    intro l2 st _ hact
    have hps : pauseTorrent st h =
        { st with active := A, statuses := st.statuses ++ [(h, "Paused")] } := by
      unfold pauseTorrent
      rw [hact, List.erase_cons_head]
    simp only [List.nil_append, dlLoop, hk, hps, eq_self_iff_true, if_true]
    rw [if_neg hA]
    simp
  | cons i rest ih =>
    intro l2 st hne hact
    have hpi : env.pausedAt ≠ some i := by
      rw [hk]
      simp only [ne_eq, Option.some_inj]
      exact fun hcontra => hne i (by simp) hcontra.symm
    have hri : env.raiseAt ≠ some i := by rw [hraise]; simp
    have hm : h ∈ st.active := by rw [hact]; simp
    simp only [List.cons_append, dlLoop, if_neg hpi, if_pos hm, if_neg hri,
      List.append_eq]
    by_cases hok : env.pieceOk i
    · rw [if_pos hok,
        ih l2 { st with attempts := st.attempts ++ [i], disk := st.disk ++ [i] }
          (fun x hx => hne x (by simp [hx])) hact]
      simp [List.filter_cons, hok]
    · rw [if_neg hok,
        ih l2 { st with attempts := st.attempts ++ [i] }
          (fun x hx => hne x (by simp [hx])) hact]
      simp [List.filter_cons, hok]

/-- C8: a pause landing at iteration boundary `k` of a running download
(no other exception) stops the loop there — exactly the pieces before
`k` are attempted, the successful ones written, the status trail is
`Downloading` then `Paused` with no `Completed`, and the hash leaves
the active set; every piece written before the pause is still in the
disk log afterwards. -/
theorem c8_pause_stops_download (st : ClientState) (h : String) (env : DlEnv) (k : Nat)
    (hact : h ∉ st.active) (htor : h ∈ st.torrents) (hpeers : env.peerCount ≠ 0)
    (hraise : env.raiseAt = none) (hk : env.pausedAt = some k)
    (hkn : k ≤ env.numPieces) :
    (downloadTorrent st h env).attempts = st.attempts ++ List.range k ∧
    (downloadTorrent st h env).disk = st.disk ++ (List.range k).filter env.pieceOk ∧
    (downloadTorrent st h env).statuses =
      st.statuses ++ [(h, "Downloading"), (h, "Paused")] ∧
    h ∉ (downloadTorrent st h env).active := by
  have hdl : downloadTorrent st h env =
      { dlBody { st with active := h :: st.active } h env with
        active := (dlBody { st with active := h :: st.active } h env).active.erase h } := by
    unfold downloadTorrent
    rw [if_neg hact, setAdd_of_not_mem hact, if_neg (by simpa using htor)]
  have hbody : dlBody { st with active := h :: st.active } h env =
      { st with active := st.active,
                statuses := st.statuses ++ [(h, "Downloading"), (h, "Paused")],
                attempts := st.attempts ++ List.range k,
                disk := st.disk ++ (List.range k).filter env.pieceOk } := by
    rcases Nat.lt_or_ge k env.numPieces with hlt | hge
    · -- pause lands inside the loop
      have h1 := List.range'_append 0 k (env.numPieces - k) 1
      simp only [Nat.zero_add, Nat.one_mul] at h1
      have h2 : env.numPieces - k + k = env.numPieces := by omega
      rw [h2] at h1
      have h3 : env.numPieces - k = (env.numPieces - (k + 1)) + 1 := by omega
      rw [h3, List.range'_succ] at h1
      have hsplit : List.range env.numPieces =
          List.range k ++ k :: List.range' (k + 1) (env.numPieces - (k + 1)) := by
        rw [List.range_eq_range', ← h1, ← List.range_eq_range']
      unfold dlBody
      rw [if_neg hpeers, hsplit,
        dlLoop_pause h env k st.active hraise hk hact _ _ _
          (fun i hi => Nat.ne_of_lt (List.mem_range.mp hi)) rfl]
      have hkn' : env.pausedAt ≠ some env.numPieces := by
        rw [hk]
        simp only [ne_eq, Option.some_inj]
        omega
      simp only [dlAfterLoop, if_neg hkn', Bool.false_eq_true, if_false]
      rw [if_neg hact]
      simp [List.append_assoc]
    · -- the pause lands at the final boundary: k = numPieces
      have hkeq : k = env.numPieces := by omega
      subst hkeq
      have hnp : ∀ i ∈ List.range env.numPieces, env.pausedAt ≠ some i := by
        intro i hi
        rw [hk]
        simp only [ne_eq, Option.some_inj]
        have := List.mem_range.mp hi
        omega
      unfold dlBody
      rw [if_neg hpeers, dlLoop_no_pause h env hraise _ _ hnp (by simp)]
      have hps : pauseTorrent
          { st with active := h :: st.active,
                    statuses := st.statuses ++ [(h, "Downloading")],
                    attempts := st.attempts ++ List.range env.numPieces,
                    disk := st.disk ++ (List.range env.numPieces).filter env.pieceOk }
          h =
          { st with active := st.active,
                    statuses := st.statuses ++ [(h, "Downloading"), (h, "Paused")],
                    attempts := st.attempts ++ List.range env.numPieces,
                    disk := st.disk ++ (List.range env.numPieces).filter env.pieceOk } := by
        unfold pauseTorrent
        simp [List.erase_cons_head]
      simp only [dlAfterLoop, Bool.false_eq_true, if_false, if_pos hk, hps]
      rw [if_neg hact]
  rw [hdl, hbody]
  refine ⟨rfl, rfl, rfl, ?_⟩
  simp only []
  rw [List.erase_of_not_mem hact]
  exact hact

/-- A concrete client with one stored torrent and nothing active. -/
def c8State : ClientState := ⟨["h"], [], [], [], []⟩

/-- A two-piece run whose pause lands at boundary 1, with one peer and
every piece attempt succeeding. -/
def c8Env : DlEnv :=
  { numPieces := 2, peerCount := 1, pieceOk := fun _ => true,
    pausedAt := some 1, raiseAt := none }

/-- Witness for C8: pausing after the first piece of a two-piece
download attempts only piece 0, keeps its write on disk, ends with
statuses `Downloading, Paused`, and leaves the active set empty. -/
theorem c8_pause_stops_download_witness :
    (downloadTorrent c8State "h" c8Env).attempts = c8State.attempts ++ List.range 1 ∧
    (downloadTorrent c8State "h" c8Env).disk =
      c8State.disk ++ (List.range 1).filter c8Env.pieceOk ∧
    (downloadTorrent c8State "h" c8Env).statuses =
      c8State.statuses ++ [("h", "Downloading"), ("h", "Paused")] ∧
    "h" ∉ (downloadTorrent c8State "h" c8Env).active :=
  c8_pause_stops_download c8State "h" c8Env 1 (by decide) (by decide) (by decide)
    rfl rfl (by decide)

/-- The loop never adds anything to the active set. -/
theorem dlLoop_active_sublist (h : String) (env : DlEnv) :
    ∀ (l : List Nat) (st : ClientState),
      ((dlLoop h env l st).1.active).Sublist st.active := by
  intro l
  induction l with
  | nil => intro st; exact List.Sublist.refl _
  | cons i rest ih =>
    intro st
    simp only [dlLoop]
    by_cases hp : env.pausedAt = some i
    · rw [if_pos hp]
      have hbase : ((pauseTorrent st h).active).Sublist st.active :=
        List.erase_sublist h st.active
      by_cases hm : h ∈ (pauseTorrent st h).active
      · rw [if_pos hm]
        by_cases hr : env.raiseAt = some i
        · rw [if_pos hr]
          exact hbase
        · rw [if_neg hr]
          by_cases hok : env.pieceOk i
          · rw [if_pos hok]
            exact (ih _).trans hbase
          · rw [if_neg hok]
            exact (ih _).trans hbase
      · rw [if_neg hm]
        exact hbase
    · rw [if_neg hp]
      by_cases hm : h ∈ st.active
      · rw [if_pos hm]
        by_cases hr : env.raiseAt = some i
        · rw [if_pos hr]
        · rw [if_neg hr]
          by_cases hok : env.pieceOk i
          · rw [if_pos hok]
            exact ih _
          · rw [if_neg hok]
            exact ih _
      · rw [if_neg hm]

/-- The post-loop tail never adds anything to the active set. -/
theorem dlAfterLoop_active_sublist (h : String) (env : DlEnv) (r : ClientState × Bool) :
    ((dlAfterLoop h env r).active).Sublist r.1.active := by
  unfold dlAfterLoop
  by_cases hr : r.2 = true
  · rw [if_pos hr]
  · rw [if_neg hr]
    by_cases hps : env.pausedAt = some env.numPieces
    · rw [if_pos hps]
      have hsub : ((pauseTorrent r.1 h).active).Sublist r.1.active :=
        List.erase_sublist h r.1.active
      by_cases hm : h ∈ (pauseTorrent r.1 h).active
      · rw [if_pos hm]
        exact hsub
      · rw [if_neg hm]
        exact hsub
    · rw [if_neg hps]
      by_cases hm : h ∈ r.1.active
      · rw [if_pos hm]
      · rw [if_neg hm]

/-- The download body never adds anything to the active set. -/
theorem dlBody_active_sublist (st0 : ClientState) (h : String) (env : DlEnv) :
    ((dlBody st0 h env).active).Sublist st0.active := by
  unfold dlBody
  by_cases hp : env.peerCount = 0
  · rw [if_pos hp]
  · rw [if_neg hp]
    exact (dlAfterLoop_active_sublist h env _).trans
      (dlLoop_active_sublist h env (List.range env.numPieces)
        { st0 with statuses := st0.statuses ++ [(h, "Downloading")] })

/-- C10 amended: an invocation that passes the membership check and
finds the hash among the stored torrents always removes it from
`active_downloads` before returning; but an invocation for a hash that
is NOT a stored torrent returns with the hash left in the active set
(the early `return` sits before the `try`/`finally`), making every
later call for it a permanent no-op. -/
theorem c10_active_set_cleanup (st : ClientState) (h : String) (env : DlEnv) :
    (h ∉ st.active → h ∈ st.torrents → h ∉ (downloadTorrent st h env).active) ∧
    (h ∉ st.active → h ∉ st.torrents →
      downloadTorrent st h env = { st with active := h :: st.active }) := by
  constructor
  · intro hact htor
    have hdl : downloadTorrent st h env =
        { dlBody { st with active := h :: st.active } h env with
          active := (dlBody { st with active := h :: st.active } h env).active.erase h } := by
      unfold downloadTorrent
      rw [if_neg hact, setAdd_of_not_mem hact, if_neg (by simpa using htor)]
    rw [hdl]
    have hsub := dlBody_active_sublist { st with active := h :: st.active } h env
    have hcount : (dlBody { st with active := h :: st.active } h env).active.count h ≤ 1 := by
      have h1 := hsub.count_le h
      simp only [] at h1
      rw [List.count_cons_self, List.count_eq_zero_of_not_mem hact] at h1
      omega
    have hzero : ((dlBody { st with active := h :: st.active } h env).active.erase h).count h
        = 0 := by
      rw [List.count_erase_self]
      omega
    exact List.count_eq_zero.mp hzero
  · intro hact htor
    unfold downloadTorrent
    rw [if_neg hact, setAdd_of_not_mem hact, if_pos (by simpa using htor)]

/-- C10 counterexample: calling `download_torrent` for a hash that is
not a stored torrent proceeds past the membership check, adds the hash
to `active_downloads`, and returns with it still there — the claim's
clean-up on every exit path fails. -/
theorem c10_counterexample :
    "h" ∈ (downloadTorrent ⟨[], [], [], [], []⟩ "h" c8Env).active := by
  decide

/-- Witness for C10 amended, at a stored torrent and at a missing one. -/
theorem c10_active_set_cleanup_witness :
    "h" ∉ (downloadTorrent c8State "h" c8Env).active ∧
    downloadTorrent ⟨[], ["x"], [], [], []⟩ "h" c8Env =
      { torrents := [], active := ["h", "x"], statuses := [], attempts := [],
        disk := [] } :=
  ⟨(c10_active_set_cleanup c8State "h" c8Env).1 (by decide) (by decide),
   (c10_active_set_cleanup ⟨[], ["x"], [], [], []⟩ "h" c8Env).2 (by decide) (by decide)⟩

/-- The FIPS 180-1 test vector: `sha1("abc")`, validating the SHA-1
model underlying the info-hash and piece-verification theorems. -/
theorem sha1_abc_test_vector : sha1 [97, 98, 99] =
    [169, 153, 62, 54, 71, 6, 129, 106, 186, 62, 37, 113, 120, 80, 194,
     108, 156, 208, 216, 157] := by
  decide

end BruvTorrent
